import Mathlib

/-!
Shallow embedding of `wetmsm/vmd_write.py`.

The assignment table is a list of 4-integer rows.  Real-valued arrays are
modelled with exact rationals (`ℚ`); dense 2-d arrays are modelled as total
functions from index pairs, with `np.zeros` as the constantly-zero function
and cell assignment as a pointwise update.  Python dicts keyed by small
tuples are modelled as association lists consulted through `dictGet`.
Fallible code returns `Except String`.

The per-chunk Cython kernels `_compute_chunk_add`, `_compute_chunk_max`
and `_compute_chunk_avg` are imported by `vmd_write.py` from the compiled
extension `wetmsm/_vmd_write`, whose source is not part of this tree; those
kernels are modelled from the spec (see their doc comments).  Everything
else is translated directly from `vmd_write.py`.
-/

namespace WetMSM

/-- One row of the (M,4) assignments table: frame, solvent, solute, shell. -/
structure Row where
  frame : Nat
  solvent : Nat
  solute : Nat
  shell : Nat
deriving DecidableEq

/-- Association-list access, modelling Python dict lookup (`d[k]` /
`d.get(k)`): the most recently inserted binding for a key wins. -/
def dictGet {α β : Type} [DecidableEq α] (a : α) : List (α × β) → Option β
  | [] => none
  | (k, v) :: es => if a = k then some v else dictGet a es

/-- Number of absolute indices `j < m` that are not in `deleted`: the value
of the running `pruni` counter after the loops of `set_up_translation` /
`translate_loading` have passed absolute index `m - 1`. -/
def keptBefore (deleted : List Nat) (m : Nat) : Nat :=
  (List.range m).countP (fun j => ! decide (j ∈ deleted))

/-- The (solute, shell) pair visited by the nested loops at the step whose
absolute index is `m` (row-major: solute-major, shell-minor). -/
def enc (K m : Nat) : Nat × Nat := (m / K, m % K)

/-- The sequence of (ute, sh) pairs visited by
`for ute in range(n_solute): for sh in range(n_shells):`. -/
def pairEnum (N K : Nat) : List (Nat × Nat) :=
  (List.range N).flatMap (fun ute => (List.range K).map (fun sh => (ute, sh)))

/-- Loop state of `VMDWriter.set_up_translation`: the two dictionaries and
the two counters. -/
structure TransState where
  to3d : List (Nat × (Nat × Nat))
  to2d : List ((Nat × Nat) × Int)
  absi : Nat
  pruni : Nat

/-- One iteration of the `set_up_translation` loop body
(vmd_write.py lines 166-174). -/
def transStep (deleted : List Nat) (st : TransState) (q : Nat × Nat) : TransState :=
  if ¬ st.absi ∈ deleted then
    { to3d := (st.pruni, q) :: st.to3d
      to2d := (q, (st.pruni : Int)) :: st.to2d
      absi := st.absi + 1
      pruni := st.pruni + 1 }
  else
    { st with to2d := (q, (-1 : Int)) :: st.to2d, absi := st.absi + 1 }

/-- The dictionaries and counters produced by `VMDWriter.set_up_translation`
(vmd_write.py lines 154-178), with `N = n_solute`, `K = n_shells`. -/
def buildTranslation (N K : Nat) (deleted : List Nat) : TransState :=
  (pairEnum N K).foldl (transStep deleted) ⟨[], [], 0, 0⟩

/-- Loop state of `VMDWriter.translate_loading`: the dense matrix being
filled and the two counters. -/
structure TLState where
  l2d : (Nat × Nat) → ℚ
  absi : Nat
  pruni : Nat

/-- Message of the Python `IndexError` raised by `loading[pruni]` when
`pruni` is out of bounds. -/
def indexErrorMsg : String := "IndexError"

/-- One iteration of the `translate_loading` loop body
(vmd_write.py lines 194-202).  `loading[pruni]` raises when the loading
vector is too short. -/
def tlStep (loading : List ℚ) (deleted : List Nat) (st : TLState) (q : Nat × Nat) :
    Except String TLState :=
  if ¬ st.absi ∈ deleted then
    match loading[st.pruni]? with
    | some v => .ok ⟨fun p => if p = q then v else st.l2d p, st.absi + 1, st.pruni + 1⟩
    | none => .error indexErrorMsg
  else
    .ok ⟨fun p => if p = q then 0 else st.l2d p, st.absi + 1, st.pruni⟩

/-- Runs the `translate_loading` loop over a list of (ute, sh) pairs,
propagating a raised `IndexError`. -/
def tlRun (loading : List ℚ) (deleted : List Nat) :
    List (Nat × Nat) → TLState → Except String TLState
  | [], st => .ok st
  | q :: qs, st =>
    match tlStep loading deleted st q with
    | .ok st2 => tlRun loading deleted qs st2
    | .error e => .error e

/-- `VMDWriter.translate_loading` (vmd_write.py lines 180-204): expand the
1-d `loading` to (solute, shell) indexing, starting from `np.zeros`. -/
def translate_loading (N K : Nat) (loading : List ℚ) (deleted : List Nat) :
    Except String ((Nat × Nat) → ℚ) :=
  (tlRun loading deleted (pairEnum N K) ⟨fun _ => 0, 0, 0⟩).map (fun st => st.l2d)

/-- Modelled from the spec: per-row body of the Cython kernel
`_compute_chunk_add` (the source `wetmsm/_vmd_write.pyx` is not in this
tree).  For a row `(frame, solvent, solute, shell)`:
`output[frame, solvent_ind[solvent]] += loading2d[solute, shell]`. -/
def _compute_chunk_add (chunk : List Row) (solvent_ind : List Nat)
    (loading2d : (Nat × Nat) → ℚ) (user : (Nat × Nat) → ℚ) : (Nat × Nat) → ℚ :=
  chunk.foldl (fun u r =>
    fun p => if p = (r.frame, solvent_ind.getD r.solvent 0)
      then u p + loading2d (r.solute, r.shell) else u p) user

/-- Modelled from the spec: per-row body of the Cython kernel
`_compute_chunk_max` (source not in this tree).  The cell is replaced by
the max of its current value and the loading value; the initial value 0 of
the output array acts as the floor. -/
def _compute_chunk_max (chunk : List Row) (solvent_ind : List Nat)
    (loading2d : (Nat × Nat) → ℚ) (user : (Nat × Nat) → ℚ) : (Nat × Nat) → ℚ :=
  chunk.foldl (fun u r =>
    fun p => if p = (r.frame, solvent_ind.getD r.solvent 0)
      then max (u p) (loading2d (r.solute, r.shell)) else u p) user

/-- Modelled from the spec: per-row body of the avg policy
(`_compute_chunk_avg`, source not in this tree).  A count array parallel to
the output is maintained across all chunks: each row adds its loading value
to the cell and bumps the cell's count. -/
def _compute_chunk_avg (chunk : List Row) (solvent_ind : List Nat)
    (loading2d : (Nat × Nat) → ℚ)
    (uc : ((Nat × Nat) → ℚ) × ((Nat × Nat) → Nat)) :
    ((Nat × Nat) → ℚ) × ((Nat × Nat) → Nat) :=
  chunk.foldl (fun uc r =>
    (fun p => if p = (r.frame, solvent_ind.getD r.solvent 0)
        then uc.1 p + loading2d (r.solute, r.shell) else uc.1 p,
     fun p => if p = (r.frame, solvent_ind.getD r.solvent 0)
        then uc.2 p + 1 else uc.2 p)) uc

/-- `assn.read(start, stop)` on the pytables array: the rows with indices
in `[start, stop)`, clamped to the table (slice semantics). -/
def tableRead (assn : List Row) (start stop : Nat) : List Row :=
  (assn.drop start).take (stop - start)

/-- `n_chunks = assn.shape[0] // chunksize + 1` (vmd_write.py line 95). -/
def nChunks (M chunksize : Nat) : Nat := M / chunksize + 1

/-- The `(start, stop)` arguments of the successive `assn.read` calls made
by the chunk loop of `_compute` (vmd_write.py lines 97-98). -/
def readRanges (M chunksize : Nat) : List (Nat × Nat) :=
  (List.range (nChunks M chunksize)).map
    (fun i => (chunksize * i, chunksize * (i + 1)))

/-- The successive chunks read by the loop of `_compute`. -/
def chunkList (assn : List Row) (chunksize : Nat) : List (List Row) :=
  (List.range (nChunks assn.length chunksize)).map
    (fun i => tableRead assn (chunksize * i) (chunksize * (i + 1)))

/-- Tag type for the three entries of `func_map`. -/
inductive AggKernel
  | add
  | max
  | avg
deriving DecidableEq

/-- The key of the `add` entry of `func_map`. -/
def addTag : String := "add"

/-- The key of the `max` entry of `func_map`. -/
def maxTag : String := "max"

/-- The key of the `avg` entry of `func_map`. -/
def avgTag : String := "avg"

/-- The aggregation-policy name used by the spec for the `add` policy; not
a key of `func_map`. -/
def sumTag : String := "sum"

/-- `func_map = {'add': ..., 'max': ..., 'avg': ...}` (vmd_write.py
lines 90-91). -/
def func_map : List (String × AggKernel) :=
  [(addTag, AggKernel.add), (maxTag, AggKernel.max), (avgTag, AggKernel.avg)]

/-- Message of the Python `KeyError` raised by `func_map[which]` on an
unknown key. -/
def keyErrorMsg (which : String) : String := "KeyError: " ++ which

/-- `_compute` (vmd_write.py lines 62-104): look the policy up in
`func_map` (a `KeyError` on an unknown tag, before any read), then stream
the table in chunks through the selected kernel.  `n_frames` and `n_atoms`
only size the `np.zeros` output, which the function model does not need.
The cross-chunk count array and the final division of the avg policy are
modelled from the spec (divide every cell by its count where the count is
positive, leave the others untouched), since the Cython kernels are not in
this tree. -/
def _compute (assn : List Row) (loading2d : (Nat × Nat) → ℚ)
    (n_frames n_atoms : Nat) (solvent_ind : List Nat)
    (chunksize : Nat) (which : String) : Except String ((Nat × Nat) → ℚ) :=
  match dictGet which func_map with
  | none => .error (keyErrorMsg which)
  | some AggKernel.add =>
    .ok ((chunkList assn chunksize).foldl
      (fun u ch => _compute_chunk_add ch solvent_ind loading2d u) (fun _ => 0))
  | some AggKernel.max =>
    .ok ((chunkList assn chunksize).foldl
      (fun u ch => _compute_chunk_max ch solvent_ind loading2d u) (fun _ => 0))
  | some AggKernel.avg =>
    let uc := (chunkList assn chunksize).foldl
      (fun uc ch => _compute_chunk_avg ch solvent_ind loading2d uc)
      (fun _ => 0, fun _ => 0)
    .ok (fun p => if 0 < uc.2 p then uc.1 p / ((uc.2 p : ℚ)) else uc.1 p)

/-- The fields of a `VMDWriter` as set up by `__init__`
(vmd_write.py lines 123-135); `to3d` and `to2d` start as `None` and
`which` as `'add'`. -/
structure VMDWriter where
  assn : List Row
  solvent_ind : List Nat
  to3d : Option (List (Nat × (Nat × Nat)))
  to2d : Option (List ((Nat × Nat) × Int))
  n_frames : Nat
  n_solute : Nat
  n_shells : Nat
  n_atoms : Nat
  which : String

/-- `VMDWriter.__init__`: stores the arguments, sets `to3d = to2d = None`
and `which = 'add'`. -/
def VMDWriter.init (assn : List Row) (solvent_ind : List Nat)
    (n_frames n_atoms n_solute n_shells : Nat) : VMDWriter :=
  ⟨assn, solvent_ind, none, none, n_frames, n_solute, n_shells, n_atoms, addTag⟩

/-- `VMDWriter.compute` (vmd_write.py lines 138-152): translate the loading
(its `IndexError`, if any, surfaces here, before `_compute` runs) and
stream the table; the method assigns to no attribute, so the writer state
it threads is returned unchanged. -/
def VMDWriter.compute (w : VMDWriter) (loading : List ℚ) (deleted : List Nat) :
    VMDWriter × Except String ((Nat × Nat) → ℚ) :=
  (w, (translate_loading w.n_solute w.n_shells loading deleted).bind
    (fun l2d => _compute w.assn l2d w.n_frames w.n_atoms w.solvent_ind 1000000 w.which))

/-- `VMDWriter.set_up_translation` (vmd_write.py lines 154-178): builds the
two dictionaries, stores them on the writer and returns them. -/
def VMDWriter.set_up_translation (w : VMDWriter) (deleted : List Nat) :
    VMDWriter × (List (Nat × (Nat × Nat)) × List ((Nat × Nat) × Int)) :=
  let st := buildTranslation w.n_solute w.n_shells deleted
  ({ w with to3d := some st.to3d, to2d := some st.to2d }, (st.to3d, st.to2d))

/-- Number of parameters after `self` in the definition
`def compute(self, loading, deleted)` (vmd_write.py line 138). -/
def compute_param_count : Nat := 2

/-- Number of arguments passed in the call
`self.compute(data, features_to_select, stride)` inside `write_dat`
(vmd_write.py line 218). -/
def write_dat_compute_arg_count : Nat := 3

/-- The guard of the companion-script branch of `write_dat`
(vmd_write.py line 227): `traj_fn is not None and top_fn is not None`. -/
def tclGuard (traj_fn top_fn : Option String) : Bool :=
  traj_fn.isSome && top_fn.isSome

/-- Whether an `Except` value is a success. -/
def exceptIsOk {α : Type} : Except String α → Bool
  | .ok _ => true
  | .error _ => false

/-- The rows of the table that land in output cell `(f, a)`: frame `f`,
global atom `solvent_ind[solvent] = a`. -/
def cellRows (assn : List Row) (solvent_ind : List Nat) (f a : Nat) : List Row :=
  assn.filter (fun r => decide (r.frame = f ∧ solvent_ind.getD r.solvent 0 = a))

/-- The loading values contributed to output cell `(f, a)`. -/
def contribs (assn : List Row) (solvent_ind : List Nat)
    (loading2d : (Nat × Nat) → ℚ) (f a : Nat) : List ℚ :=
  (cellRows assn solvent_ind f a).map (fun r => loading2d (r.solute, r.shell))

/-! ### Chunk coverage -/

theorem tableRead_chunk (assn : List Row) (c i : Nat) :
    tableRead assn (c * i) (c * (i + 1)) = (assn.drop (c * i)).take c := by
  unfold tableRead
  rw [Nat.mul_succ, Nat.add_sub_cancel_left]

theorem chunks_flatten (c : Nat) :
    ∀ (n : Nat) (xs : List Row), xs.length ≤ c * n →
      ((List.range n).map (fun i => (xs.drop (c * i)).take c)).flatten = xs := by
  intro n
  induction n with
  | zero =>
    intro xs h
    simp only [Nat.mul_zero, Nat.le_zero, List.length_eq_zero] at h
    simp [h]
  | succ n ih =>
    intro xs h
    rw [List.range_succ_eq_map, List.map_cons, List.map_map, List.flatten_cons]
    have hmap :
        (List.map ((fun i => (xs.drop (c * i)).take c) ∘ Nat.succ) (List.range n)) =
        (List.map (fun i => ((xs.drop c).drop (c * i)).take c) (List.range n)) := by
      refine List.map_congr_left ?_
      intro i _
      simp only [Function.comp]
      rw [List.drop_drop]
      have : c * Nat.succ i = c + c * i := by rw [Nat.mul_succ, Nat.add_comm]
      rw [this]
    rw [hmap, Nat.mul_zero, List.drop_zero]
    have hlen : (xs.drop c).length ≤ c * n := by
      rw [List.length_drop]
      rw [Nat.mul_succ] at h
      omega
    rw [ih (xs.drop c) hlen, List.take_append_drop]

theorem chunkList_flatten (assn : List Row) (c : Nat) (hc : 1 ≤ c) :
    (chunkList assn c).flatten = assn := by
  unfold chunkList nChunks
  have hmap :
      (List.range (assn.length / c + 1)).map
          (fun i => tableRead assn (c * i) (c * (i + 1))) =
      (List.range (assn.length / c + 1)).map
          (fun i => (assn.drop (c * i)).take c) := by
    refine List.map_congr_left ?_
    intro i _
    exact tableRead_chunk assn c i
  rw [hmap]
  refine chunks_flatten c (assn.length / c + 1) assn ?_
  have hdm := Nat.div_add_mod assn.length c
  have hml := Nat.mod_lt assn.length (show 0 < c by omega)
  have : c * (assn.length / c + 1) = c * (assn.length / c) + c := by rw [Nat.mul_succ]
  omega

/-- C2 (counterexample): the chunk loop of `_compute` does not make
ceil(M / chunk_size) reads.  For M = 2 rows and chunk size 2 it makes
`2 // 2 + 1 = 2` reads, while ceil(2 / 2) = 1: a spurious empty extra
chunk is read when M is an exact multiple of the chunk size. -/
theorem chunk_ranges_ceil_refuted :
    (readRanges 2 2).length ≠ (2 + 2 - 1) / 2 ∧
    tableRead [⟨0, 0, 0, 0⟩, ⟨0, 1, 0, 0⟩] ((readRanges 2 2).getD 1 (0, 0)).1
      ((readRanges 2 2).getD 1 (0, 0)).2 = [] := by
  constructor
  · decide
  · rfl

/-- C2 (amended): for every table of M rows and every chunk size c ≥ 1 the
chunk loop performs exactly `M / c + 1` sequential non-overlapping range
reads (the i-th read being rows [c*i, c*(i+1))); this equals ceil(M / c)
whenever c does not divide M, and the chunks consumed concatenate back to
exactly the whole table, so the extra empty trailing read that occurs when
c divides M contributes no rows. -/
theorem chunk_ranges_floor_plus_one (M c : Nat) (assn : List Row)
    (hc : 1 ≤ c) (hM : assn.length = M) :
    (readRanges M c).length = M / c + 1 ∧
    (∀ i, i < M / c + 1 → (readRanges M c)[i]? = some (c * i, c * (i + 1))) ∧
    (¬ c ∣ M → M / c + 1 = (M + c - 1) / c) ∧
    (chunkList assn c).flatten = assn := by
  refine ⟨?_, ?_, ?_, ?_⟩
  · simp [readRanges, nChunks]
  · intro i hi
    unfold readRanges nChunks
    rw [List.getElem?_map, List.getElem?_range hi]
    rfl
  · intro hdvd
    have hr : M % c ≠ 0 := fun h => hdvd (Nat.dvd_of_mod_eq_zero h)
    have hdm := Nat.div_add_mod M c
    have hml := Nat.mod_lt M (show 0 < c by omega)
    have hsucc : c * (M / c + 1) = c * (M / c) + c := by rw [Nat.mul_succ]
    have h1 : M + c - 1 = c * (M / c + 1) + (M % c - 1) := by omega
    rw [h1, Nat.mul_add_div (show 0 < c by omega),
      Nat.div_eq_of_lt (show M % c - 1 < c by omega), Nat.add_zero]
  · exact chunkList_flatten assn c hc

/-- C2 (witness): the amended statement at M = 5 rows, chunk size 2. -/
theorem chunk_ranges_floor_plus_one_witness :
    (readRanges 5 2).length = 5 / 2 + 1 ∧
    (∀ i, i < 5 / 2 + 1 → (readRanges 5 2)[i]? = some (2 * i, 2 * (i + 1))) ∧
    (¬ 2 ∣ 5 → 5 / 2 + 1 = (5 + 2 - 1) / 2) ∧
    (chunkList [⟨0, 0, 0, 0⟩, ⟨0, 1, 0, 0⟩, ⟨1, 0, 0, 0⟩, ⟨1, 1, 0, 0⟩, ⟨2, 0, 0, 0⟩] 2).flatten
      = [⟨0, 0, 0, 0⟩, ⟨0, 1, 0, 0⟩, ⟨1, 0, 0, 0⟩, ⟨1, 1, 0, 0⟩, ⟨2, 0, 0, 0⟩] :=
  chunk_ranges_floor_plus_one 5 2
    [⟨0, 0, 0, 0⟩, ⟨0, 1, 0, 0⟩, ⟨1, 0, 0, 0⟩, ⟨1, 1, 0, 0⟩, ⟨2, 0, 0, 0⟩]
    (by decide) (by decide)

/-! ### Row-major enumeration and the kept-index count -/

theorem dictGet_cons {α β : Type} [DecidableEq α] (a k : α) (v : β) (l : List (α × β)) :
    dictGet a ((k, v) :: l) = if a = k then some v else dictGet a l := rfl

theorem enc_inj (K m m2 : Nat) (h : enc K m = enc K m2) : m = m2 := by
  unfold enc at h
  have h1 : m / K = m2 / K := congrArg Prod.fst h
  have h2 : m % K = m2 % K := congrArg Prod.snd h
  rcases Nat.eq_zero_or_pos K with hK | hK
  · subst hK
    simpa [Nat.mod_zero] using h2
  · have d1 := Nat.div_add_mod m K
    have d2 := Nat.div_add_mod m2 K
    have h3 : K * (m / K) = K * (m2 / K) := by rw [h1]
    omega

theorem enc_encode (K s h : Nat) (hh : h < K) : enc K (s * K + h) = (s, h) := by
  unfold enc
  have hK : 0 < K := by omega
  rw [Nat.add_comm (s * K) h, Nat.add_mul_div_right h s hK, Nat.add_mul_mod_self_right,
    Nat.div_eq_of_lt hh, Nat.mod_eq_of_lt hh, Nat.zero_add]

theorem pairEnum_eq (N K : Nat) :
    pairEnum N K = (List.range (N * K)).map (enc K) := by
  induction N with
  | zero => simp [pairEnum]
  | succ N ih =>
    unfold pairEnum at ih ⊢
    rw [List.range_succ, List.flatMap_append, ih, Nat.succ_mul, List.range_add,
      List.map_append, List.map_map]
    congr 1
    simp only [List.flatMap_cons, List.flatMap_nil, List.append_nil]
    refine List.map_congr_left ?_
    intro sh hsh
    rw [List.mem_range] at hsh
    simp only [Function.comp]
    exact (enc_encode K N sh hsh).symm

theorem keptBefore_succ (ds : List Nat) (m : Nat) :
    keptBefore ds (m + 1) = keptBefore ds m + (if m ∈ ds then 0 else 1) := by
  unfold keptBefore
  rw [List.range_succ, List.countP_append]
  by_cases h : m ∈ ds <;> simp [h]

theorem keptBefore_mono (ds : List Nat) (m m2 : Nat) (h : m ≤ m2) :
    keptBefore ds m ≤ keptBefore ds m2 := by
  induction m2 with
  | zero =>
    have : m = 0 := by omega
    subst this
    exact Nat.le_refl _
  | succ m2 ih =>
    rcases Nat.lt_or_ge m (m2 + 1) with hlt | hge
    · have h2 := keptBefore_succ ds m2
      have h3 := ih (by omega)
      omega
    · have : m = m2 + 1 := by omega
      subst this
      exact Nat.le_refl _

theorem keptBefore_lt_succ (ds : List Nat) (m : Nat) (h : ¬ m ∈ ds) :
    keptBefore ds m < keptBefore ds (m + 1) := by
  rw [keptBefore_succ, if_neg h]
  omega

theorem keptBefore_add_mem_count (ds : List Nat) (M : Nat) :
    keptBefore ds M + (List.range M).countP (fun j => decide (j ∈ ds)) = M := by
  unfold keptBefore
  induction M with
  | zero => simp
  | succ M ih =>
    rw [List.range_succ, List.countP_append, List.countP_append]
    by_cases h : M ∈ ds <;> simp [h] <;> omega

theorem countP_mem_range (ds : List Nat) (M : Nat) (hnd : ds.Nodup)
    (hb : ∀ x ∈ ds, x < M) :
    (List.range M).countP (fun j => decide (j ∈ ds)) = ds.length := by
  rw [List.countP_eq_length_filter]
  have hperm : List.Perm ((List.range M).filter (fun j => decide (j ∈ ds))) ds := by
    refine (List.perm_ext_iff_of_nodup (List.Nodup.filter _ (List.nodup_range M)) hnd).mpr ?_
    intro a
    simp only [List.mem_filter, List.mem_range, decide_eq_true_eq]
    exact ⟨fun h => h.2, fun h => ⟨hb a h, h⟩⟩
  exact hperm.length_eq

/-- The `set_up_translation` fold over the first `M` steps of the
row-major enumeration, reindexed through `enc`; by `pairEnum_eq`,
`buildTranslation N K deleted = transRun deleted K (N * K)`. -/
def transRun (deleted : List Nat) (K M : Nat) : TransState :=
  ((List.range M).map (enc K)).foldl (transStep deleted) ⟨[], [], 0, 0⟩

theorem transRun_succ (deleted : List Nat) (K M : Nat) :
    transRun deleted K (M + 1) = transStep deleted (transRun deleted K M) (enc K M) := by
  unfold transRun
  rw [List.range_succ, List.map_append, List.foldl_append]
  rfl

theorem buildTranslation_eq (N K : Nat) (deleted : List Nat) :
    buildTranslation N K deleted = transRun deleted K (N * K) := by
  unfold buildTranslation transRun
  rw [pairEnum_eq]

theorem transRun_invariant (deleted : List Nat) (K M : Nat) :
    (transRun deleted K M).absi = M ∧
    (transRun deleted K M).pruni = keptBefore deleted M ∧
    (∀ m, m < M → dictGet (enc K m) (transRun deleted K M).to2d =
      some (if m ∈ deleted then (-1 : Int) else (keptBefore deleted m : Int))) ∧
    (∀ m, m < M → ¬ m ∈ deleted →
      dictGet (keptBefore deleted m) (transRun deleted K M).to3d = some (enc K m)) := by
  induction M with
  | zero =>
    refine ⟨rfl, rfl, ?_, ?_⟩
    · intro m hm; omega
    · intro m hm; omega
  | succ M ih =>
    obtain ⟨ha, hp, h2, h3⟩ := ih
    rw [transRun_succ]
    unfold transStep
    rw [ha, hp]
    by_cases hM : M ∈ deleted
    · rw [if_neg (fun hn => hn hM)]
      refine ⟨rfl, ?_, ?_, ?_⟩
      · simp [keptBefore_succ, hM]
      · intro m hm
        rcases Nat.lt_or_ge m M with hlt | hge
        · rw [dictGet_cons,
            if_neg (fun hc => by have := enc_inj K m M hc; omega)]
          exact h2 m hlt
        · have hmeq : m = M := by omega
          subst hmeq
          rw [dictGet_cons, if_pos rfl, if_pos hM]
      · intro m hm hmem
        have hne : m ≠ M := fun he => hmem (he ▸ hM)
        exact h3 m (by omega) hmem
    · rw [if_pos hM]
      refine ⟨rfl, ?_, ?_, ?_⟩
      · simp [keptBefore_succ, hM]
      · intro m hm
        rcases Nat.lt_or_ge m M with hlt | hge
        · rw [dictGet_cons,
            if_neg (fun hc => by have := enc_inj K m M hc; omega)]
          exact h2 m hlt
        · have hmeq : m = M := by omega
          subst hmeq
          rw [dictGet_cons, if_pos rfl, if_neg hM]
      · intro m hm hmem
        rcases Nat.lt_or_ge m M with hlt | hge
        · rw [dictGet_cons, if_neg (fun hc => by
            have hlt2 : keptBefore deleted m < keptBefore deleted M :=
              Nat.lt_of_lt_of_le (keptBefore_lt_succ deleted m hmem)
                (keptBefore_mono deleted (m + 1) M hlt)
            omega)]
          exact h3 m hlt hmem
        · have hmeq : m = M := by omega
          subst hmeq
          rw [dictGet_cons, if_pos rfl]

/-- C3: for every pruned-index set and dimensions, the dictionaries built
by `set_up_translation` satisfy: a pair (s, h) whose absolute index
`s * n_shells + h` is in the pruned set is mapped by `to2d` to the
sentinel -1, and exactly those pairs are; a non-pruned pair is mapped by
`to2d` to a non-sentinel pruned index p (the count of kept indices before
it), and `to3d p` maps back to (s, h). -/
theorem translation_roundtrip_and_sentinel (N K : Nat) (deleted : List Nat)
    (s h : Nat) (hs : s < N) (hh : h < K) :
    (s * K + h ∈ deleted →
      dictGet (s, h) (buildTranslation N K deleted).to2d = some (-1)) ∧
    (¬ s * K + h ∈ deleted →
      dictGet (s, h) (buildTranslation N K deleted).to2d
          = some ((keptBefore deleted (s * K + h) : Int)) ∧
      ((keptBefore deleted (s * K + h) : Int)) ≠ -1 ∧
      dictGet (keptBefore deleted (s * K + h)) (buildTranslation N K deleted).to3d
          = some (s, h)) := by
  have hm : s * K + h < N * K := by
    have h1 : s * K + h < (s + 1) * K := by
      rw [Nat.succ_mul]
      omega
    exact Nat.lt_of_lt_of_le h1 (Nat.mul_le_mul_right K hs)
  have henc : enc K (s * K + h) = (s, h) := enc_encode K s h hh
  rw [buildTranslation_eq]
  obtain ⟨_, _, h2, h3⟩ := transRun_invariant deleted K (N * K)
  constructor
  · intro hdel
    have := h2 (s * K + h) hm
    rw [henc, if_pos hdel] at this
    exact this
  · intro hdel
    have hv := h2 (s * K + h) hm
    rw [henc, if_neg hdel] at hv
    refine ⟨hv, by omega, ?_⟩
    have := h3 (s * K + h) hm hdel
    rw [henc] at this
    exact this

/-- C3 (witness): n_solute = 2, n_shells = 2, pruned set {1}: pair (0, 1)
(absolute index 1) maps to the sentinel, pair (1, 0) (absolute index 2)
maps to pruned index 1 and back. -/
theorem translation_roundtrip_and_sentinel_witness :
    ((0 : Nat) * 2 + 1 ∈ [1] →
      dictGet (0, 1) (buildTranslation 2 2 [1]).to2d = some (-1)) ∧
    (¬ (0 : Nat) * 2 + 1 ∈ [1] →
      dictGet (0, 1) (buildTranslation 2 2 [1]).to2d
          = some ((keptBefore [1] ((0 : Nat) * 2 + 1) : Int)) ∧
      ((keptBefore [1] ((0 : Nat) * 2 + 1) : Int)) ≠ -1 ∧
      dictGet (keptBefore [1] ((0 : Nat) * 2 + 1)) (buildTranslation 2 2 [1]).to3d
          = some (0, 1)) :=
  translation_roundtrip_and_sentinel 2 2 [1] 0 1 (by decide) (by decide)

/-- C7: the final value of the running kept count `pruni` produced by
`set_up_translation` equals n_solute * n_shells - |P| for every pruned set
P of distinct absolute indices within range. -/
theorem kept_count_eq_total_minus_pruned (N K : Nat) (deleted : List Nat)
    (hnd : deleted.Nodup) (hb : ∀ x ∈ deleted, x < N * K) :
    (buildTranslation N K deleted).pruni = N * K - deleted.length := by
  rw [buildTranslation_eq]
  obtain ⟨_, hp, _, _⟩ := transRun_invariant deleted K (N * K)
  rw [hp]
  have h1 := keptBefore_add_mem_count deleted (N * K)
  have h2 := countP_mem_range deleted (N * K) hnd hb
  omega

/-- C7 (witness): n_solute = 2, n_shells = 2, pruned set {1}: the kept
count is 2 * 2 - 1 = 3. -/
theorem kept_count_eq_total_minus_pruned_witness :
    (buildTranslation 2 2 [1]).pruni = 2 * 2 - [1].length :=
  kept_count_eq_total_minus_pruned 2 2 [1] (by decide) (by decide)

/-! ### Loading expansion -/

/-- The `translate_loading` loop over the first `M` steps of the row-major
enumeration, reindexed through `enc`; by `pairEnum_eq`,
`translate_loading N K` is the projection of `tlRunM … K (N * K)`. -/
def tlRunM (loading : List ℚ) (deleted : List Nat) (K M : Nat) : Except String TLState :=
  tlRun loading deleted ((List.range M).map (enc K)) ⟨fun _ => 0, 0, 0⟩

theorem tlRun_append (loading : List ℚ) (deleted : List Nat) (xs ys : List (Nat × Nat))
    (st : TLState) :
    tlRun loading deleted (xs ++ ys) st =
      match tlRun loading deleted xs st with
      | .ok st2 => tlRun loading deleted ys st2
      | .error e => .error e := by
  induction xs generalizing st with
  | nil => rfl
  | cons q qs ih =>
    rw [List.cons_append]
    have hL : tlRun loading deleted (q :: (qs ++ ys)) st =
        match tlStep loading deleted st q with
        | .ok st2 => tlRun loading deleted (qs ++ ys) st2
        | .error e => .error e := rfl
    have hR : tlRun loading deleted (q :: qs) st =
        match tlStep loading deleted st q with
        | .ok st2 => tlRun loading deleted qs st2
        | .error e => .error e := rfl
    rw [hL, hR]
    cases tlStep loading deleted st q with
    | ok st2 => exact ih st2
    | error e => rfl

theorem tlRunM_succ (loading : List ℚ) (deleted : List Nat) (K M : Nat) :
    tlRunM loading deleted K (M + 1) =
      match tlRunM loading deleted K M with
      | .ok st => tlStep loading deleted st (enc K M)
      | .error e => .error e := by
  unfold tlRunM
  rw [List.range_succ, List.map_append, tlRun_append]
  cases tlRun loading deleted ((List.range M).map (enc K)) ⟨fun _ => 0, 0, 0⟩ with
  | ok st =>
    show (match tlStep loading deleted st (enc K M) with
      | .ok st2 => tlRun loading deleted [] st2
      | .error e => .error e) = tlStep loading deleted st (enc K M)
    cases tlStep loading deleted st (enc K M) with
    | ok st2 => rfl
    | error e => rfl
  | error e => rfl

theorem translate_loading_eq (N K : Nat) (loading : List ℚ) (deleted : List Nat) :
    translate_loading N K loading deleted =
      (tlRunM loading deleted K (N * K)).map (fun st => st.l2d) := by
  unfold translate_loading tlRunM
  rw [pairEnum_eq]

theorem tlRunM_invariant (loading : List ℚ) (deleted : List Nat) (K M : Nat) :
    (∀ e, tlRunM loading deleted K M = .error e →
      e = indexErrorMsg ∧ loading.length < keptBefore deleted M) ∧
    (∀ st, tlRunM loading deleted K M = .ok st →
      keptBefore deleted M ≤ loading.length ∧
      st.absi = M ∧ st.pruni = keptBefore deleted M ∧
      (∀ m, m < M → st.l2d (enc K m) =
        (if m ∈ deleted then 0 else loading.getD (keptBefore deleted m) 0)) ∧
      (∀ q, (∀ m, m < M → q ≠ enc K m) → st.l2d q = 0)) := by
  induction M with
  | zero =>
    have hz : tlRunM loading deleted K 0 = .ok (⟨fun _ => 0, 0, 0⟩ : TLState) := rfl
    constructor
    · intro e he
      rw [hz] at he
      exact Except.noConfusion he
    · intro st hst
      rw [hz] at hst
      have hst2 : (⟨fun _ => 0, 0, 0⟩ : TLState) = st := Except.ok.inj hst
      subst hst2
      refine ⟨by simp [keptBefore], rfl, by simp [keptBefore], ?_, ?_⟩
      · intro m hm
        omega
      · intro q _
        rfl
  | succ M ih =>
    obtain ⟨ihe, iho⟩ := ih
    constructor
    · intro e he
      rw [tlRunM_succ] at he
      cases hres : tlRunM loading deleted K M with
      | error e2 =>
        rw [hres] at he
        have h1 := ihe e2 hres
        have h2 : e2 = e := Except.error.inj he
        subst h2
        have h3 : keptBefore deleted M ≤ keptBefore deleted (M + 1) :=
          keptBefore_mono deleted M (M + 1) (by omega)
        exact ⟨h1.1, by omega⟩
      | ok st =>
        rw [hres] at he
        obtain ⟨hle, ha, hp, _, _⟩ := iho st hres
        have he2 : tlStep loading deleted st (enc K M) = Except.error e := he
        unfold tlStep at he2
        rw [ha, hp] at he2
        by_cases hM : M ∈ deleted
        · rw [if_neg (fun hn => hn hM)] at he2
          exact Except.noConfusion he2
        · rw [if_pos hM] at he2
          cases hget : loading[keptBefore deleted M]? with
          | none =>
            rw [hget] at he2
            have h2 : indexErrorMsg = e := Except.error.inj he2
            have h3 : loading.length ≤ keptBefore deleted M :=
              List.getElem?_eq_none_iff.mp hget
            have h4 := keptBefore_lt_succ deleted M hM
            exact ⟨h2.symm, by omega⟩
          | some v =>
            rw [hget] at he2
            exact Except.noConfusion he2
    · intro st2 hst2
      rw [tlRunM_succ] at hst2
      cases hres : tlRunM loading deleted K M with
      | error e2 =>
        rw [hres] at hst2
        exact Except.noConfusion hst2
      | ok st =>
        rw [hres] at hst2
        obtain ⟨hle, ha, hp, hcell, hzero⟩ := iho st hres
        have hstep : tlStep loading deleted st (enc K M) = Except.ok st2 := hst2
        unfold tlStep at hstep
        rw [ha, hp] at hstep
        by_cases hM : M ∈ deleted
        · rw [if_neg (fun hn => hn hM)] at hstep
          have hst3 : (⟨fun p => if p = enc K M then 0 else st.l2d p, M + 1,
              keptBefore deleted M⟩ : TLState) = st2 := Except.ok.inj hstep
          subst hst3
          have hk : keptBefore deleted (M + 1) = keptBefore deleted M := by
            rw [keptBefore_succ, if_pos hM]
            omega
          refine ⟨by omega, rfl, by rw [hk], ?_, ?_⟩
          · intro m hm
            rcases Nat.lt_or_ge m M with hlt | hge
            · show (if enc K m = enc K M then 0 else st.l2d (enc K m)) = _
              rw [if_neg (fun hc => by have := enc_inj K m M hc; omega)]
              exact hcell m hlt
            · have hmeq : m = M := by omega
              subst hmeq
              show (if enc K m = enc K m then 0 else st.l2d (enc K m)) = _
              rw [if_pos rfl, if_pos hM]
          · intro q hq
            show (if q = enc K M then 0 else st.l2d q) = 0
            rw [if_neg (hq M (by omega))]
            exact hzero q (fun m hm => hq m (by omega))
        · rw [if_pos hM] at hstep
          cases hget : loading[keptBefore deleted M]? with
          | none =>
            rw [hget] at hstep
            exact Except.noConfusion hstep
          | some v =>
            rw [hget] at hstep
            have hst3 : (⟨fun p => if p = enc K M then v else st.l2d p, M + 1,
                keptBefore deleted M + 1⟩ : TLState) = st2 := Except.ok.inj hstep
            subst hst3
            have hk : keptBefore deleted (M + 1) = keptBefore deleted M + 1 := by
              rw [keptBefore_succ, if_neg hM]
            have hlt : keptBefore deleted M < loading.length := by
              rcases List.getElem?_eq_some.mp hget with ⟨hb, _⟩
              exact hb
            refine ⟨by omega, rfl, by rw [hk], ?_, ?_⟩
            · intro m hm
              rcases Nat.lt_or_ge m M with hlt2 | hge
              · show (if enc K m = enc K M then v else st.l2d (enc K m)) = _
                rw [if_neg (fun hc => by have := enc_inj K m M hc; omega)]
                exact hcell m hlt2
              · have hmeq : m = M := by omega
                subst hmeq
                show (if enc K m = enc K m then v else st.l2d (enc K m)) = _
                rw [if_pos rfl, if_neg hM]
                rw [List.getD_eq_getElem?_getD, hget]
                rfl
            · intro q hq
              show (if q = enc K M then v else st.l2d q) = 0
              rw [if_neg (hq M (by omega))]
              exact hzero q (fun m hm => hq m (by omega))

/-- C4: when `translate_loading` succeeds, the dense (n_solute x n_shells)
matrix holds, at each non-pruned pair (s, h), the loading entry whose
index is the count of non-pruned pairs preceding (s, h) in row-major
order, and 0 at each pruned pair; for non-pruned pairs that index is
within the loading vector. -/
theorem translate_loading_cells (N K : Nat) (loading : List ℚ) (deleted : List Nat)
    (s h : Nat) (hs : s < N) (hh : h < K)
    (hok : exceptIsOk (translate_loading N K loading deleted) = true) :
    (translate_loading N K loading deleted).map (fun f => f (s, h)) =
      .ok (if s * K + h ∈ deleted then 0
        else loading.getD (keptBefore deleted (s * K + h)) 0) ∧
    (¬ s * K + h ∈ deleted → keptBefore deleted (s * K + h) < loading.length) := by
  have hm : s * K + h < N * K := by
    have h1 : s * K + h < (s + 1) * K := by
      rw [Nat.succ_mul]
      omega
    exact Nat.lt_of_lt_of_le h1 (Nat.mul_le_mul_right K hs)
  have henc : enc K (s * K + h) = (s, h) := enc_encode K s h hh
  rw [translate_loading_eq] at hok ⊢
  obtain ⟨_, iho⟩ := tlRunM_invariant loading deleted K (N * K)
  cases hres : tlRunM loading deleted K (N * K) with
  | error e =>
    rw [hres] at hok
    exact Bool.noConfusion (show (false : Bool) = true from hok)
  | ok st =>
    obtain ⟨hle, _, _, hcell, _⟩ := iho st hres
    constructor
    · show Except.ok (st.l2d (s, h)) = _
      rw [← henc, hcell (s * K + h) hm]
    · intro hdel
      have h1 := keptBefore_lt_succ deleted (s * K + h) hdel
      have h2 := keptBefore_mono deleted (s * K + h + 1) (N * K) (by omega)
      omega

/-- C4 (witness): the spec's pruning scenario: n_solute = 2, n_shells = 2,
pruned set {1}, loading [1, 2, 3]; cell (1, 1) holds loading[2] = 3, with
2 = the count of non-pruned pairs preceding (1, 1). -/
theorem translate_loading_cells_witness :
    ((translate_loading 2 2 [(1 : ℚ), 2, 3] [1]).map (fun f => f (1, 1)) =
      .ok (if 1 * 2 + 1 ∈ [1] then 0
        else [(1 : ℚ), 2, 3].getD (keptBefore [1] (1 * 2 + 1)) 0) ∧
    (¬ 1 * 2 + 1 ∈ [1] → keptBefore [1] (1 * 2 + 1) < [(1 : ℚ), 2, 3].length)) :=
  translate_loading_cells 2 2 [(1 : ℚ), 2, 3] [1] 1 1 (by decide) (by decide) (by decide)

/-- C5 (counterexample): the loading-expansion step does not fail whenever
the loading length differs from kept_count: with n_solute = n_shells = 1
and nothing pruned (kept_count = 1), a loading vector of length 2 is
accepted without error, although 2 ≠ 1. -/
theorem dimension_mismatch_iff_refuted :
    exceptIsOk (translate_loading 1 1 [(1 : ℚ), 2] []) = true ∧
    [(1 : ℚ), 2].length ≠ keptBefore [] (1 * 1) := by
  constructor
  · rfl
  · decide

/-- C5 (amended): the loading-expansion step fails (with an `IndexError`;
the code has no dedicated DimensionMismatch condition) if and only if the
loading vector is strictly shorter than the kept_count implied by the
pruned set — a longer vector is silently accepted — and when it fails the
failure surfaces out of `compute` without any chunk of the assignment
table being read: the result is the same error for every table. -/
theorem short_loading_fails_before_read (w : VMDWriter) (loading : List ℚ)
    (deleted : List Nat) :
    (exceptIsOk (translate_loading w.n_solute w.n_shells loading deleted) = false ↔
      loading.length < keptBefore deleted (w.n_solute * w.n_shells)) ∧
    (loading.length < keptBefore deleted (w.n_solute * w.n_shells) →
      ∀ assn2 : List Row,
        (w.compute loading deleted).2 = .error indexErrorMsg ∧
        (w.compute loading deleted).2
          = ({ w with assn := assn2 }.compute loading deleted).2) := by
  obtain ⟨ihe, iho⟩ := tlRunM_invariant loading deleted w.n_shells (w.n_solute * w.n_shells)
  have herr : loading.length < keptBefore deleted (w.n_solute * w.n_shells) →
      translate_loading w.n_solute w.n_shells loading deleted = .error indexErrorMsg := by
    intro hlen
    rw [translate_loading_eq]
    cases hres : tlRunM loading deleted w.n_shells (w.n_solute * w.n_shells) with
    | error e =>
      rw [(ihe e hres).1]
      rfl
    | ok st =>
      obtain ⟨hle, _⟩ := iho st hres
      omega
  constructor
  · constructor
    · intro hfalse
      rw [translate_loading_eq] at hfalse
      cases hres : tlRunM loading deleted w.n_shells (w.n_solute * w.n_shells) with
      | error e => exact (ihe e hres).2
      | ok st =>
        rw [hres] at hfalse
        exact Bool.noConfusion (show (true : Bool) = false from hfalse)
    · intro hlen
      rw [herr hlen]
      rfl
  · intro hlen assn2
    have h1 : (w.compute loading deleted).2 = .error indexErrorMsg := by
      show (translate_loading w.n_solute w.n_shells loading deleted).bind _ = _
      rw [herr hlen]
      rfl
    have h2 : ({ w with assn := assn2 }.compute loading deleted).2
        = .error indexErrorMsg := by
      show (translate_loading w.n_solute w.n_shells loading deleted).bind _ = _
      rw [herr hlen]
      rfl
    exact ⟨h1, by rw [h1, h2]⟩

/-- C5 (witness): the amended statement for a writer with n_solute =
n_shells = 1, nothing pruned and an empty loading vector (too short):
the computation fails with the IndexError for every table. -/
theorem short_loading_fails_before_read_witness :
    (exceptIsOk (translate_loading (VMDWriter.init [] [] 1 1 1 1).n_solute
        (VMDWriter.init [] [] 1 1 1 1).n_shells [] []) = false ↔
      List.length ([] : List ℚ) <
        keptBefore [] ((VMDWriter.init [] [] 1 1 1 1).n_solute
          * (VMDWriter.init [] [] 1 1 1 1).n_shells)) ∧
    (List.length ([] : List ℚ) <
        keptBefore [] ((VMDWriter.init [] [] 1 1 1 1).n_solute
          * (VMDWriter.init [] [] 1 1 1 1).n_shells) →
      ∀ assn2 : List Row,
        ((VMDWriter.init [] [] 1 1 1 1).compute [] []).2 = .error indexErrorMsg ∧
        ((VMDWriter.init [] [] 1 1 1 1).compute [] []).2
          = ({ VMDWriter.init [] [] 1 1 1 1 with assn := assn2 }.compute [] []).2) :=
  short_loading_fails_before_read (VMDWriter.init [] [] 1 1 1 1) [] []

/-! ### Chunked aggregation -/

theorem avg_chunks_concat (si : List Nat) (l2d : (Nat × Nat) → ℚ) :
    ∀ (L : List (List Row)) (uc : ((Nat × Nat) → ℚ) × ((Nat × Nat) → Nat)),
      L.foldl (fun uc ch => _compute_chunk_avg ch si l2d uc) uc
        = _compute_chunk_avg L.flatten si l2d uc := by
  intro L
  induction L with
  | nil => intro uc; rfl
  | cons ch L ih =>
    intro uc
    rw [List.foldl_cons, List.flatten_cons, ih]
    unfold _compute_chunk_avg
    rw [List.foldl_append]

theorem avg_fold_cell (si : List Nat) (l2d : (Nat × Nat) → ℚ) (rows : List Row)
    (f a : Nat) :
    ∀ uc : ((Nat × Nat) → ℚ) × ((Nat × Nat) → Nat),
      (_compute_chunk_avg rows si l2d uc).1 (f, a)
          = uc.1 (f, a) + (contribs rows si l2d f a).sum ∧
      (_compute_chunk_avg rows si l2d uc).2 (f, a)
          = uc.2 (f, a) + (contribs rows si l2d f a).length := by
  induction rows with
  | nil =>
    intro uc
    constructor <;> simp [_compute_chunk_avg, contribs, cellRows]
  | cons r rows ih =>
    intro uc
    have hcons : _compute_chunk_avg (r :: rows) si l2d uc
        = _compute_chunk_avg rows si l2d
          ((fun p => if p = (r.frame, si.getD r.solvent 0)
              then uc.1 p + l2d (r.solute, r.shell) else uc.1 p),
           (fun p => if p = (r.frame, si.getD r.solvent 0)
              then uc.2 p + 1 else uc.2 p)) := rfl
    rw [hcons]
    obtain ⟨ih1, ih2⟩ := ih ((fun p => if p = (r.frame, si.getD r.solvent 0)
        then uc.1 p + l2d (r.solute, r.shell) else uc.1 p),
      (fun p => if p = (r.frame, si.getD r.solvent 0)
        then uc.2 p + 1 else uc.2 p))
    rw [ih1, ih2]
    by_cases hp : (f, a) = (r.frame, si.getD r.solvent 0)
    · have hpred : decide (r.frame = f ∧ si.getD r.solvent 0 = a) = true := by
        have h1 : f = r.frame := congrArg Prod.fst hp
        have h2 : a = si.getD r.solvent 0 := congrArg Prod.snd hp
        simp [h1, h2]
      have hcr : contribs (r :: rows) si l2d f a
          = l2d (r.solute, r.shell) :: contribs rows si l2d f a := by
        unfold contribs cellRows
        rw [List.filter_cons, hpred]
        rfl
      rw [hcr]
      constructor
      · show (if (f, a) = (r.frame, si.getD r.solvent 0)
            then uc.1 (f, a) + l2d (r.solute, r.shell) else uc.1 (f, a))
            + (contribs rows si l2d f a).sum = _
        rw [if_pos hp, List.sum_cons]
        ring
      · show (if (f, a) = (r.frame, si.getD r.solvent 0)
            then uc.2 (f, a) + 1 else uc.2 (f, a))
            + (contribs rows si l2d f a).length = _
        rw [if_pos hp, List.length_cons]
        omega
    · have hpred : decide (r.frame = f ∧ si.getD r.solvent 0 = a) = false := by
        simp only [decide_eq_false_iff_not]
        intro hand
        exact hp (by rw [Prod.mk.injEq]; exact ⟨hand.1.symm, hand.2.symm⟩)
      have hcr : contribs (r :: rows) si l2d f a = contribs rows si l2d f a := by
        unfold contribs cellRows
        rw [List.filter_cons, hpred]
        rfl
      rw [hcr]
      constructor
      · show (if (f, a) = (r.frame, si.getD r.solvent 0)
            then uc.1 (f, a) + l2d (r.solute, r.shell) else uc.1 (f, a))
            + (contribs rows si l2d f a).sum = _
        rw [if_neg hp]
      · show (if (f, a) = (r.frame, si.getD r.solvent 0)
            then uc.2 (f, a) + 1 else uc.2 (f, a))
            + (contribs rows si l2d f a).length = _
        rw [if_neg hp]

theorem avg_closed (assn : List Row) (l2d : (Nat × Nat) → ℚ) (nf na : Nat)
    (si : List Nat) (c : Nat) (hc : 1 ≤ c) :
    _compute assn l2d nf na si c avgTag =
      .ok (fun p => if (contribs assn si l2d p.1 p.2).length = 0 then 0
        else (contribs assn si l2d p.1 p.2).sum
          / (((contribs assn si l2d p.1 p.2).length : ℚ))) := by
  have hdef : _compute assn l2d nf na si c avgTag =
      .ok (fun p =>
        if 0 < ((chunkList assn c).foldl
            (fun uc ch => _compute_chunk_avg ch si l2d uc) (fun _ => 0, fun _ => 0)).2 p
        then ((chunkList assn c).foldl
            (fun uc ch => _compute_chunk_avg ch si l2d uc) (fun _ => 0, fun _ => 0)).1 p
          / ((((chunkList assn c).foldl
            (fun uc ch => _compute_chunk_avg ch si l2d uc) (fun _ => 0, fun _ => 0)).2 p : ℚ))
        else ((chunkList assn c).foldl
            (fun uc ch => _compute_chunk_avg ch si l2d uc) (fun _ => 0, fun _ => 0)).1 p) := rfl
  rw [hdef, avg_chunks_concat si l2d (chunkList assn c) (fun _ => 0, fun _ => 0),
    chunkList_flatten assn c hc]
  congr 1
  funext p
  obtain ⟨f, a⟩ := p
  obtain ⟨h1, h2⟩ := avg_fold_cell si l2d assn f a (fun _ => 0, fun _ => 0)
  rw [h1, h2]
  show (if 0 < 0 + (contribs assn si l2d f a).length
      then (0 + (contribs assn si l2d f a).sum)
        / ((((0 : Nat) + (contribs assn si l2d f a).length : Nat) : ℚ))
      else 0 + (contribs assn si l2d f a).sum) = _
  cases hn : (contribs assn si l2d f a).length with
  | zero =>
    have hnil : contribs assn si l2d f a = [] := List.length_eq_zero.mp hn
    rw [if_neg (by omega), if_pos rfl, hnil, List.sum_nil]
    ring
  | succ n =>
    rw [if_pos (by omega), if_neg (by omega)]
    rw [Nat.zero_add, Rat.zero_add]

/-- C1: for the avg aggregation policy (a parallel (n_frames x n_atoms)
count array alongside the output, modelled from the spec since the Cython
kernel is not in this tree), after all chunks are consumed every output
cell with at least one contributing row equals the arithmetic mean of its
contributing loading values, every cell with no contributing row is
exactly 0, and the result is independent of the chunk size used. -/
theorem avg_policy_mean_and_chunk_invariant (assn : List Row)
    (l2d : (Nat × Nat) → ℚ) (nf na : Nat) (si : List Nat) (c c2 : Nat)
    (hc : 1 ≤ c) (hc2 : 1 ≤ c2) (f a : Nat) :
    (_compute assn l2d nf na si c avgTag).map (fun u => u (f, a)) =
      .ok (if (contribs assn si l2d f a).length = 0 then 0
        else (contribs assn si l2d f a).sum
          / (((contribs assn si l2d f a).length : ℚ))) ∧
    _compute assn l2d nf na si c avgTag = _compute assn l2d nf na si c2 avgTag := by
  rw [avg_closed assn l2d nf na si c hc, avg_closed assn l2d nf na si c2 hc2]
  exact ⟨rfl, rfl⟩

/-- C1 (witness): the spec's boundary scenario under the avg policy: 3
rows, two of which land on cell (0, 2) with value 5 (mean 5), chunk sizes
1 and 2 agree. -/
theorem avg_policy_mean_and_chunk_invariant_witness :
    (_compute [⟨0, 0, 0, 0⟩, ⟨0, 0, 0, 0⟩, ⟨1, 1, 1, 1⟩]
        (fun q => if q = (0, 0) then 5 else if q = (1, 1) then 7 else 0)
        2 3 [2, 0] 1 avgTag).map (fun u => u (0, 2)) =
      .ok (if (contribs [⟨0, 0, 0, 0⟩, ⟨0, 0, 0, 0⟩, ⟨1, 1, 1, 1⟩] [2, 0]
          (fun q => if q = (0, 0) then 5 else if q = (1, 1) then 7 else 0) 0 2).length = 0
        then 0
        else (contribs [⟨0, 0, 0, 0⟩, ⟨0, 0, 0, 0⟩, ⟨1, 1, 1, 1⟩] [2, 0]
            (fun q => if q = (0, 0) then 5 else if q = (1, 1) then 7 else 0) 0 2).sum
          / (((contribs [⟨0, 0, 0, 0⟩, ⟨0, 0, 0, 0⟩, ⟨1, 1, 1, 1⟩] [2, 0]
            (fun q => if q = (0, 0) then 5 else if q = (1, 1) then 7 else 0) 0 2).length : ℚ))) ∧
    _compute [⟨0, 0, 0, 0⟩, ⟨0, 0, 0, 0⟩, ⟨1, 1, 1, 1⟩]
        (fun q => if q = (0, 0) then 5 else if q = (1, 1) then 7 else 0)
        2 3 [2, 0] 1 avgTag
      = _compute [⟨0, 0, 0, 0⟩, ⟨0, 0, 0, 0⟩, ⟨1, 1, 1, 1⟩]
        (fun q => if q = (0, 0) then 5 else if q = (1, 1) then 7 else 0)
        2 3 [2, 0] 2 avgTag :=
  avg_policy_mean_and_chunk_invariant
    [⟨0, 0, 0, 0⟩, ⟨0, 0, 0, 0⟩, ⟨1, 1, 1, 1⟩]
    (fun q => if q = (0, 0) then 5 else if q = (1, 1) then 7 else 0)
    2 3 [2, 0] 1 2 (by decide) (by decide) 0 2

/-- C6 (counterexample): the tag `sum` is refused by `_compute` although
the claim's accepted set {sum, max, avg} contains it: the code's policy
dict is keyed `add`, `max`, `avg`, so `func_map['sum']` raises a KeyError. -/
theorem unknown_policy_sum_refuted :
    _compute [] (fun _ => 0) 0 0 [] 1000000 sumTag = .error (keyErrorMsg sumTag) := rfl

/-- C6 (amended): a policy tag outside {add, max, avg} (the code spells
the sum policy `add`) makes `_compute` fail with a KeyError — there is no
dedicated UnknownAggregationPolicy error — at the `func_map` lookup,
before any data is read: the error is the same for every table; every tag
in {add, max, avg} is accepted. -/
theorem unknown_policy_keyerror (which : String) (assn assn2 : List Row)
    (l2d : (Nat × Nat) → ℚ) (nf na : Nat) (si : List Nat) (c : Nat) :
    (exceptIsOk (_compute assn l2d nf na si c which) = true ↔
      which ∈ [addTag, maxTag, avgTag]) ∧
    (¬ which ∈ [addTag, maxTag, avgTag] →
      _compute assn l2d nf na si c which = .error (keyErrorMsg which) ∧
      _compute assn l2d nf na si c which = _compute assn2 l2d nf na si c which) := by
  by_cases h1 : which = addTag
  · subst h1
    refine ⟨⟨fun _ => by simp, fun _ => rfl⟩, fun hmem => absurd (by simp) hmem⟩
  by_cases h2 : which = maxTag
  · subst h2
    refine ⟨⟨fun _ => by simp, fun _ => rfl⟩, fun hmem => absurd (by simp) hmem⟩
  by_cases h3 : which = avgTag
  · subst h3
    refine ⟨⟨fun _ => by simp, fun _ => rfl⟩, fun hmem => absurd (by simp) hmem⟩
  · have hmem : ¬ which ∈ [addTag, maxTag, avgTag] := by
      intro hm
      rcases List.mem_cons.mp hm with h | hm2
      · exact h1 h
      rcases List.mem_cons.mp hm2 with h | hm3
      · exact h2 h
      rcases List.mem_cons.mp hm3 with h | hm4
      · exact h3 h
      · exact absurd hm4 (List.not_mem_nil _)
    have hget : dictGet which func_map = none := by
      show (if which = addTag then some AggKernel.add
        else if which = maxTag then some AggKernel.max
        else if which = avgTag then some AggKernel.avg else none) = none
      rw [if_neg h1, if_neg h2, if_neg h3]
    have hcomp : ∀ (xs : List Row),
        _compute xs l2d nf na si c which = .error (keyErrorMsg which) := by
      intro xs
      unfold _compute
      rw [hget]
    refine ⟨⟨fun htrue => ?_, fun hm => absurd hm hmem⟩,
      fun _ => ⟨hcomp assn, by rw [hcomp assn, hcomp assn2]⟩⟩
    rw [hcomp assn] at htrue
    exact Bool.noConfusion (show (false : Bool) = true from htrue)

/-- C6 (witness): the amended statement at the tag `sum`: it is outside
{add, max, avg}, is refused with the KeyError, and the refusal does not
depend on the table. -/
theorem unknown_policy_keyerror_witness :
    (exceptIsOk (_compute [] (fun _ => 0) 0 0 [] 1000000 sumTag) = true ↔
      sumTag ∈ [addTag, maxTag, avgTag]) ∧
    (¬ sumTag ∈ [addTag, maxTag, avgTag] →
      _compute [] (fun _ => 0) 0 0 [] 1000000 sumTag
          = .error (keyErrorMsg sumTag) ∧
      _compute [] (fun _ => 0) 0 0 [] 1000000 sumTag
          = _compute [⟨0, 0, 0, 0⟩] (fun _ => 0) 0 0 [] 1000000 sumTag) :=
  unknown_policy_keyerror sumTag [] [⟨0, 0, 0, 0⟩] (fun _ => 0) 0 0 [] 1000000

/-- C8 (code evidence): `write_dat` passes three positional arguments
(data, features_to_select, stride) to `VMDWriter.compute`, which accepts
two (loading, deleted): Python raises a TypeError at that call, before any
line of the data file has been written. -/
theorem write_dat_arity_mismatch :
    write_dat_compute_arg_count ≠ compute_param_count ∧
    write_dat_compute_arg_count = 3 ∧ compute_param_count = 2 :=
  ⟨by decide, rfl, rfl⟩

/-- C10: `VMDWriter.compute` assigns to no attribute of the writer: every
field of the writer state it threads — `assn`, `solvent_ind`, `n_frames`,
`n_atoms`, `n_solute`, `n_shells`, `which`, and in particular the `to3d`
and `to2d` dictionaries, which it never populates — is returned exactly as
it was before the call. -/
theorem compute_preserves_writer (w : VMDWriter) (loading : List ℚ)
    (deleted : List Nat) :
    (w.compute loading deleted).1.assn = w.assn ∧
    (w.compute loading deleted).1.solvent_ind = w.solvent_ind ∧
    (w.compute loading deleted).1.n_frames = w.n_frames ∧
    (w.compute loading deleted).1.n_atoms = w.n_atoms ∧
    (w.compute loading deleted).1.n_solute = w.n_solute ∧
    (w.compute loading deleted).1.n_shells = w.n_shells ∧
    (w.compute loading deleted).1.which = w.which ∧
    (w.compute loading deleted).1.to3d = w.to3d ∧
    (w.compute loading deleted).1.to2d = w.to2d :=
  ⟨rfl, rfl, rfl, rfl, rfl, rfl, rfl, rfl, rfl⟩

/-- C10 (witness): field preservation at a concrete freshly initialized
writer (whose `to3d`/`to2d` are `None`) and a concrete loading. -/
theorem compute_preserves_writer_witness :
    ((VMDWriter.init [⟨0, 0, 0, 0⟩] [0] 1 1 1 1).compute [(1 : ℚ)] []).1.assn
        = (VMDWriter.init [⟨0, 0, 0, 0⟩] [0] 1 1 1 1).assn ∧
    ((VMDWriter.init [⟨0, 0, 0, 0⟩] [0] 1 1 1 1).compute [(1 : ℚ)] []).1.solvent_ind
        = (VMDWriter.init [⟨0, 0, 0, 0⟩] [0] 1 1 1 1).solvent_ind ∧
    ((VMDWriter.init [⟨0, 0, 0, 0⟩] [0] 1 1 1 1).compute [(1 : ℚ)] []).1.n_frames
        = (VMDWriter.init [⟨0, 0, 0, 0⟩] [0] 1 1 1 1).n_frames ∧
    ((VMDWriter.init [⟨0, 0, 0, 0⟩] [0] 1 1 1 1).compute [(1 : ℚ)] []).1.n_atoms
        = (VMDWriter.init [⟨0, 0, 0, 0⟩] [0] 1 1 1 1).n_atoms ∧
    ((VMDWriter.init [⟨0, 0, 0, 0⟩] [0] 1 1 1 1).compute [(1 : ℚ)] []).1.n_solute
        = (VMDWriter.init [⟨0, 0, 0, 0⟩] [0] 1 1 1 1).n_solute ∧
    ((VMDWriter.init [⟨0, 0, 0, 0⟩] [0] 1 1 1 1).compute [(1 : ℚ)] []).1.n_shells
        = (VMDWriter.init [⟨0, 0, 0, 0⟩] [0] 1 1 1 1).n_shells ∧
    ((VMDWriter.init [⟨0, 0, 0, 0⟩] [0] 1 1 1 1).compute [(1 : ℚ)] []).1.which
        = (VMDWriter.init [⟨0, 0, 0, 0⟩] [0] 1 1 1 1).which ∧
    ((VMDWriter.init [⟨0, 0, 0, 0⟩] [0] 1 1 1 1).compute [(1 : ℚ)] []).1.to3d
        = (VMDWriter.init [⟨0, 0, 0, 0⟩] [0] 1 1 1 1).to3d ∧
    ((VMDWriter.init [⟨0, 0, 0, 0⟩] [0] 1 1 1 1).compute [(1 : ℚ)] []).1.to2d
        = (VMDWriter.init [⟨0, 0, 0, 0⟩] [0] 1 1 1 1).to2d :=
  compute_preserves_writer (VMDWriter.init [⟨0, 0, 0, 0⟩] [0] 1 1 1 1) [(1 : ℚ)] []

end WetMSM
